import Mathlib

/-!
Verification of the core of a bilingual document-search service:
the text chunker (`app/api/ingest.py`, `chunk_text`) and the
vector-index / metadata manager (`app/storage/faiss_index.py`,
`FaissIndexManager`).

Texts are modelled as `List Char`; Python slice / `rfind` / `strip`
semantics are embedded explicitly.  Python's only float comparison in
the chunker, `last_delim > max_size * 0.6`, is modelled by the exact
integer comparison `10 * last_delim > 6 * max_size`.
-/

/-! ## Python string primitives -/

/-- Python whitespace predicate (the characters `str.strip()` removes). -/
def pyIsSpace (c : Char) : Bool :=
  let n := c.toNat
  (9 ≤ n && n ≤ 13) || (28 ≤ n && n ≤ 32) || n = 133 || n = 160 || n = 0x1680 ||
  (0x2000 ≤ n && n ≤ 0x200a) || n = 0x2028 || n = 0x2029 || n = 0x202f || n = 0x205f || n = 0x3000

/-- Python `str.strip()`: drop whitespace from both ends. -/
def pyStrip (t : List Char) : List Char :=
  ((t.dropWhile pyIsSpace).reverse.dropWhile pyIsSpace).reverse

/-- Normalize a Python slice bound for a sequence of length `n`
(negative indices count from the end; out-of-range bounds clamp). -/
def pyIdx (n : Nat) (i : Int) : Nat :=
  if i < 0 then ((n : Int) + i).toNat else min i.toNat n

/-- Python slice `t[a:b]`. -/
def pySlice (t : List Char) (a b : Int) : List Char :=
  (t.take (pyIdx t.length b)).drop (pyIdx t.length a)

/-- Python `w.rfind(pat)`: the greatest index at which `pat` occurs in `w`,
`-1` if it does not occur. -/
def rfind (w pat : List Char) : Int :=
  match (List.range (w.length + 1)).reverse.find? (fun i => pat.isPrefixOf (w.drop i)) with
  | some i => (i : Int)
  | none => -1

/-! ## The chunker (`chunk_text`) -/

/-- The ordered sentence-terminator preference list of `chunk_text`:
full-width period, period, full-width / half-width exclamation,
full-width / half-width question mark, blank line. -/
def delimiters : List (List Char) :=
  [['。'], ['.'], ['！'], ['!'], ['？'], ['?'], ['\n', '\n']]

/-- The delimiter scan of `chunk_text`: for each delimiter in preference
order take `rfind` in the window, accept the first whose result passes
`last_delim > max_size * 0.6` (exactly: `10 * last_delim > 6 * max_size`). -/
def findDelimAux (w : List Char) (ms : Nat) : List (List Char) → Option Int
  | [] => none
  | d :: ds =>
    let ld := rfind w d
    if ld * 10 > (ms : Int) * 6 then some ld else findDelimAux w ms ds

def findDelim (w : List Char) (ms : Nat) : Option Int :=
  findDelimAux w ms delimiters

/-- The cut point of one window `[start, start+max_size)` of `chunk_text`:
when the hard end lies strictly inside the text, try the delimiter scan on
`text[start:end]` and on success cut at `start + last_delim + 1`, else at
the hard end `start + max_size`. -/
def windowEnd (t : List Char) (ms : Nat) (start : Int) : Int :=
  let end0 : Int := start + (ms : Int)
  if end0 < (t.length : Int) then
    match findDelim (pySlice t start end0) ms with
    | some ld => start + ld + 1
    | none => end0
  else end0

/-- The chunk one window emits before the empty-after-strip guard:
`text[start:end].strip()`. -/
def stepChunk (t : List Char) (ms : Nat) (start : Int) : List Char :=
  pyStrip (pySlice t start (windowEnd t ms start))

/-- The advance of `start`: `end - overlap` when `end < len(text)`, else `end`. -/
def nextStart (t : List Char) (ms ov : Nat) (start : Int) : Int :=
  let e := windowEnd t ms start
  if e < (t.length : Int) then e - (ov : Int) else e

/-- The `while start < len(text)` loop of `chunk_text`, with explicit fuel:
`none` means the fuel ran out before the loop exited. -/
def chunkLoop (t : List Char) (ms ov : Nat) : Nat → Int → Option (List (List Char))
  | 0, _ => none
  | fuel + 1, s =>
    if s < (t.length : Int) then
      match chunkLoop t ms ov fuel (nextStart t ms ov s) with
      | none => none
      | some rest =>
        some (if stepChunk t ms s = [] then rest else stepChunk t ms s :: rest)
    else some []

/-- The window start positions the loop visits (one entry per iteration of
the `while` body), up to the given fuel. -/
def chunkStarts (t : List Char) (ms ov : Nat) : Nat → Int → List Int
  | 0, _ => []
  | fuel + 1, s =>
    if s < (t.length : Int) then s :: chunkStarts t ms ov fuel (nextStart t ms ov s)
    else []

/-- `chunk_text(text, max_size, overlap)`: texts not longer than `max_size`
are returned whole; longer texts go through the windowing loop. -/
def chunk_text (t : List Char) (ms ov : Nat) (fuel : Nat) : Option (List (List Char)) :=
  if t.length ≤ ms then some [t] else chunkLoop t ms ov fuel 0

/-! ## Specification-side chunker cut rule (for the refinement claim about
the cut-point selection).  "Last occurrence" is defined semantically: the
greatest index of the ascending index list at which the delimiter occurs. -/

/-- The last occurrence of `pat` in `w`, defined as the last element of the
ascending list of all occurrence positions. -/
def lastOccSem (w pat : List Char) : Option Nat :=
  ((List.range (w.length + 1)).filter (fun i => pat.isPrefixOf (w.drop i))).getLast?

/-- Spec-side cut scan: walk the preference list in order; a delimiter with a
last occurrence beyond 60% of `max_size` fixes the cut, otherwise keep
scanning. -/
def specCutAux (w : List Char) (ms : Nat) : List (List Char) → Option Nat
  | [] => none
  | d :: ds =>
    match lastOccSem w d with
    | some k => if 10 * k > 6 * ms then some k else specCutAux w ms ds
    | none => specCutAux w ms ds

def specCut (w : List Char) (ms : Nat) : Option Nat :=
  specCutAux w ms delimiters

/-- Spec-side window end: the accepted terminator position plus one, else the
hard boundary `start + max_size`. -/
def specWindowEnd (t : List Char) (ms : Nat) (start : Int) : Int :=
  match specCut (pySlice t start (start + (ms : Int))) ms with
  | some k => start + (k : Int) + 1
  | none => start + (ms : Int)

/-! ## The index manager (`FaissIndexManager`)

The metadata store (SQLite table `documents`) is a durable list of rows;
the FAISS index is a volatile list of vectors, persisted on demand to an
on-disk artifact.  `add_documents` runs its row inserts inside one SQLite
transaction (rolled back on any exception), appends all embeddings to the
FAISS index after the insert loop, and only then commits; `_doc_counter`
is volatile and is restored from `MAX(id)` only when the on-disk index
artifact exists and loads successfully.  Failures of the primitive steps
(a row insert, the FAISS append, the commit) are modelled by an explicit
failure specification; a row insert also fails deterministically on a
primary-key conflict.  Embedding vectors are opaque integer vectors with
inner-product similarity. -/

def Vec := List Int
deriving DecidableEq

structure Row where
  id : Nat
  doc_id : String
  text : String
  language : String
  filename : String
  chunk_index : Nat
deriving DecidableEq

structure MgrState where
  rows : List Row
  vectors : List Vec
  counter : Nat
  fileVec : Option (List Vec)
deriving DecidableEq

/-- A freshly constructed manager on empty storage. -/
def st0 : MgrState := ⟨[], [], 0, none⟩

/-- Injected failures for one `add_documents` call: `insertFail i` makes the
`i`-th row insert raise, `addFail` makes the FAISS append raise,
`commitFail` makes the final commit raise. -/
structure FailSpec where
  insertFail : Option Nat
  addFail : Bool
  commitFail : Bool
deriving DecidableEq

def noFail : FailSpec := ⟨none, false, false⟩

inductive AddResult
  | ok (ids : List String)
  | arityMismatch
  | insertError
  | addError
  | commitError
deriving DecidableEq

def docIdStr (n : Nat) : String := "doc_" ++ toString n

def mkRow (id : Nat) (x : String × String × String × Nat) : Row :=
  ⟨id, docIdStr id, x.1, x.2.1, x.2.2.1, x.2.2.2⟩

/-- Python `zip(texts, languages, filenames, chunk_indices)`: truncates to the
shortest of the four sequences. -/
def zip4 (a : List String) (b : List String) (c : List String) (d : List Nat) :
    List (String × String × String × Nat) :=
  a.zip (b.zip (c.zip d))

/-- The insert loop of `add_documents`: per element, advance the counter,
build the row, and attempt the SQLite insert (which raises on an injected
failure or a primary-key conflict with a committed row).  Returns the final
counter, the rows pending in the transaction, the doc-id strings, and
whether the loop completed. -/
def addLoop (existing : List Nat) (oracle : Option Nat) :
    List (String × String × String × Nat) → Nat → Nat → Nat × List Row × List String × Bool
  | [], counter, _ => (counter, [], [], true)
  | x :: xs, counter, i =>
    let id := counter + 1
    if oracle = some i ∨ id ∈ existing then (id, [], [], false)
    else
      let r := addLoop existing oracle xs id (i + 1)
      (r.1, mkRow id x :: r.2.1, docIdStr id :: r.2.2.1, r.2.2.2)

/-- `FaissIndexManager.add_documents`.  Only `len(texts) != len(embeddings)`
is checked up front; the metadata loop runs over the truncating four-way
`zip`; the counter keeps every increment made before a failure (rollback
undoes pending rows only); the FAISS append happens before the commit, so a
commit failure keeps the appended vectors while the rows roll back. -/
def addLoopOf (st : MgrState) (texts : List String) (langs : List String)
    (files : List String) (cidxs : List Nat) (fs : FailSpec) :
    Nat × List Row × List String × Bool :=
  addLoop (st.rows.map (fun row => row.id)) fs.insertFail
    (zip4 texts langs files cidxs) st.counter 0

def add_documents (st : MgrState) (texts : List String) (embs : List Vec)
    (langs : List String) (files : List String) (cidxs : List Nat) (fs : FailSpec) :
    MgrState × AddResult :=
  if texts.length ≠ embs.length then (st, .arityMismatch)
  else if (addLoopOf st texts langs files cidxs fs).2.2.2 = false then
    ({ st with counter := (addLoopOf st texts langs files cidxs fs).1 }, .insertError)
  else if fs.addFail then
    ({ st with counter := (addLoopOf st texts langs files cidxs fs).1 }, .addError)
  else if fs.commitFail then
    (⟨st.rows, st.vectors ++ embs, (addLoopOf st texts langs files cidxs fs).1, st.fileVec⟩,
      .commitError)
  else
    (⟨st.rows ++ (addLoopOf st texts langs files cidxs fs).2.1, st.vectors ++ embs,
        (addLoopOf st texts langs files cidxs fs).1, st.fileVec⟩,
      .ok (addLoopOf st texts langs files cidxs fs).2.2.1)

/-! ### Search -/

structure Hit where
  doc_id : String
  text : String
  language : String
  filename : String
  score : Int
deriving DecidableEq

/-- Inner product, the similarity of `faiss.IndexFlatIP`. -/
def dot (a b : Vec) : Int :=
  ((List.zip a b).map (fun p => p.1 * p.2)).sum

/-- Descending-score order on (score, position) pairs. -/
def scoreGe (a b : Int × Nat) : Prop := b.1 ≤ a.1

instance : DecidableRel scoreGe := fun a b => inferInstanceAs (Decidable (b.1 ≤ a.1))

instance : IsTotal (Int × Nat) scoreGe :=
  ⟨fun a b => (le_total a.1 b.1).symm⟩

instance : IsTrans (Int × Nat) scoreGe :=
  ⟨fun _ _ _ hab hbc => le_trans hbc hab⟩

/-- Exact k-nearest search of `faiss.IndexFlatIP`: score every stored vector
against the query, order best-first by inner product, return the first `k`
as (score, 0-based position) pairs. -/
def faissSearch (vectors : List Vec) (q : Vec) (k : Nat) : List (Int × Nat) :=
  (List.insertionSort scoreGe (vectors.enum.map (fun p => (dot q p.2, p.1)))).take k

/-- `SELECT ... FROM documents WHERE id = ?`. -/
def lookupRow (rows : List Row) (id : Nat) : Option Row :=
  rows.find? (fun r => r.id = id)

/-- Turn one raw search result into an enriched hit: the row with id
`position + 1` provides the metadata; a missing row yields `none`. -/
def hitOf (rows : List Row) (p : Int × Nat) : Option Hit :=
  (lookupRow rows (p.2 + 1)).map (fun r => ⟨r.doc_id, r.text, r.language, r.filename, p.1⟩)

/-- `FaissIndexManager.search`: empty result on an empty index; otherwise
search with `min(top_k, ntotal)` and skip raw positions without a matching
metadata row. -/
def searchMgr (st : MgrState) (q : Vec) (k : Nat) : List Hit :=
  if st.vectors.length = 0 then []
  else (faissSearch st.vectors q (min k st.vectors.length)).filterMap (hitOf st.rows)

/-! ### Persist, stats, restart -/

/-- `MAX(id)` over the `documents` table, with SQL `NULL` (empty table)
read back as 0. -/
def maxIdOf (rows : List Row) : Nat :=
  (rows.map (fun r => r.id)).foldr max 0

/-- `FaissIndexManager.persist`: write the index artifact only when the
index holds vectors. -/
def persistMgr (st : MgrState) : MgrState :=
  if st.vectors.length > 0 then { st with fileVec := some st.vectors } else st

/-- `FaissIndexManager.get_stats`. -/
def get_stats (st : MgrState) : Nat × Nat :=
  (st.rows.length, st.vectors.length)

/-- Constructing a manager over existing storage (`_load_or_create_index`):
if the index artifact exists and loads, take its vectors and restore the
counter from `MAX(id)`; otherwise fall back to a fresh empty index with the
counter at 0.  Committed rows are durable. -/
def reloadMgr (st : MgrState) (loadOk : Bool) : MgrState :=
  match st.fileVec, loadOk with
  | some v, true => { st with vectors := v, counter := maxIdOf st.rows }
  | some _, false => { st with vectors := [], counter := 0 }
  | none, _ => { st with vectors := [], counter := 0 }

/-! ### Operation sequences -/

inductive Op
  | add (texts : List String) (embs : List Vec) (langs : List String)
      (files : List String) (cidxs : List Nat) (fs : FailSpec)
  | search (q : Vec) (k : Nat)
  | persist
  | stats
  | restart (loadOk : Bool)

/-- State effect of one operation (search and stats do not mutate). -/
def stepOp (st : MgrState) : Op → MgrState
  | .add t e l f c fs => (add_documents st t e l f c fs).1
  | .search _ _ => st
  | .persist => persistMgr st
  | .stats => st
  | .restart ok => reloadMgr st ok

def run (ops : List Op) : MgrState :=
  ops.foldl stepOp st0

/-- The five input sequences of an add all have equal length. -/
def equalArity : Op → Prop
  | .add t e l f c _ =>
      t.length = e.length ∧ e.length = l.length ∧ l.length = f.length ∧ f.length = c.length
  | _ => True

/-- No injected failure and not a restart. -/
def happyOp : Op → Prop
  | .add _ _ _ _ _ fs => fs = noFail
  | .restart _ => False
  | _ => True

/-- The id ↔ position invariant of the two stores: equal cardinality, and a
row with id `k` exists exactly when the vector index holds position `k-1`. -/
def StoreInv (st : MgrState) : Prop :=
  st.rows.length = st.vectors.length ∧
  ∀ k : Nat, (∃ r ∈ st.rows, r.id = k) ↔ (1 ≤ k ∧ k ≤ st.vectors.length)

/-- Structural alignment of a manager state: ids are exactly `1..n` in
insertion order and the counter sits at the top id. -/
def IdAligned (st : MgrState) : Prop :=
  st.rows.map (fun r => r.id) = List.range' 1 st.rows.length ∧
  st.counter = st.rows.length

/-- Descending-score order on hits. -/
def hitGe (a b : Hit) : Prop := b.score ≤ a.score

/-! ### Concrete fixtures used by witness and counterexample theorems -/

/-- A two-document state reached by one successful add. -/
def exStA : MgrState :=
  (add_documents st0 (["a", "b"]) ([[5], [9]]) (["en", "ja"]) (["f", "g"]) ([0, 1]) noFail).1

/-- An inconsistent state: two vectors but only one metadata row. -/
def exStB : MgrState :=
  ⟨[⟨1, docIdStr 1, "a", "en", "f", 0⟩], [[5], [9]], 2, none⟩

/-- The mismatched-arity call of the spec example: three texts and
embeddings, two languages, two filenames and chunk indices. -/
def exMismatchedAdd : Op :=
  Op.add (["a", "b", "c"]) ([[1], [2], [3]]) (["en", "en"]) (["f", "f"]) ([0, 1]) noFail

/-- One well-formed two-document add. -/
def exGoodAdd : Op :=
  Op.add (["a", "b"]) ([[5], [9]]) (["en", "ja"]) (["f", "g"]) ([0, 1]) noFail

/-! # Generic list lemmas -/

theorem find?_eq_head?_filter {α : Type} (p : α → Bool) :
    ∀ l : List α, l.find? p = (l.filter p).head?
  | [] => rfl
  | x :: xs => by
    by_cases h : p x
    · simp [List.find?_cons_of_pos _ h, List.filter_cons, h]
    · simp only [List.find?_cons_of_neg _ (by simpa using h), List.filter_cons, h]
      simp only [Bool.false_eq_true, if_false]
      exact find?_eq_head?_filter p xs

theorem find?_reverse_eq_getLast?_filter {α : Type} (p : α → Bool) (l : List α) :
    l.reverse.find? p = (l.filter p).getLast? := by
  rw [find?_eq_head?_filter, List.filter_reverse, List.head?_reverse]

theorem dropWhile_dropWhile {α : Type} (p : α → Bool) :
    ∀ l : List α, (l.dropWhile p).dropWhile p = l.dropWhile p
  | [] => rfl
  | x :: xs => by
    by_cases h : p x
    · simpa [List.dropWhile_cons, h] using dropWhile_dropWhile p xs
    · simp [List.dropWhile_cons, h]

theorem length_dropWhile_le {α : Type} (p : α → Bool) :
    ∀ l : List α, (l.dropWhile p).length ≤ l.length
  | [] => le_refl _
  | x :: xs => by
    by_cases h : p x
    · simp only [List.dropWhile_cons, h, if_true]
      exact le_trans (length_dropWhile_le p xs) (by simp)
    · simp [List.dropWhile_cons, h]

theorem dropWhile_eq_self_of_head {α : Type} (p : α → Bool) (l : List α)
    (h : ∀ a, l.head? = some a → p a = false) : l.dropWhile p = l := by
  cases l with
  | nil => rfl
  | cons x xs => simp [List.dropWhile_cons, h x rfl]

theorem dropWhile_cons_self_head {α : Type} (p : α → Bool) (x : α) (xs : List α)
    (h : (x :: xs).dropWhile p = x :: xs) : p x = false := by
  by_cases hx : p x
  · exfalso
    rw [List.dropWhile_cons, if_pos hx] at h
    have hlen := length_dropWhile_le p xs
    rw [h] at hlen
    simp at hlen
  · simpa using hx

theorem getLast?_dropWhile_ne_nil {α : Type} (p : α → Bool) :
    ∀ l : List α, l.dropWhile p ≠ [] → (l.dropWhile p).getLast? = l.getLast?
  | [], h => absurd rfl h
  | x :: xs, h => by
    by_cases hx : p x
    · rw [List.dropWhile_cons, if_pos hx] at h ⊢
      have hxs : xs ≠ [] := by
        intro hn
        rw [hn] at h
        exact h rfl
      obtain ⟨y, ys, rfl⟩ := List.exists_cons_of_ne_nil hxs
      rw [getLast?_dropWhile_ne_nil p (y :: ys) h, List.getLast?_cons_cons]
    · rw [List.dropWhile_cons, if_neg hx]

theorem dropWhile_reverse_dropWhile_reverse {α : Type} (p : α → Bool) (m : List α)
    (hm : m.dropWhile p = m) :
    (((m.reverse.dropWhile p).reverse).dropWhile p) = (m.reverse.dropWhile p).reverse := by
  cases m with
  | nil => simp
  | cons x xs =>
    have hx : p x = false := dropWhile_cons_self_head p x xs hm
    set u := (x :: xs).reverse.dropWhile p with hu
    rcases eq_or_ne u [] with h | h
    · simp [h]
    · apply dropWhile_eq_self_of_head
      intro a ha
      rw [List.head?_reverse] at ha
      have h1 : u.getLast? = ((x :: xs).reverse).getLast? :=
        getLast?_dropWhile_ne_nil p ((x :: xs).reverse) (by rw [← hu]; exact h)
      rw [List.getLast?_reverse] at h1
      rw [h1] at ha
      simp only [List.head?_cons, Option.some.injEq] at ha
      rw [← ha]
      exact hx

theorem pyStrip_idem (l : List Char) : pyStrip (pyStrip l) = pyStrip l := by
  unfold pyStrip
  set m := l.dropWhile pyIsSpace with hm
  have hmm : m.dropWhile pyIsSpace = m := dropWhile_dropWhile pyIsSpace l
  set S := (m.reverse.dropWhile pyIsSpace).reverse with hS
  have hDS : S.dropWhile pyIsSpace = S := dropWhile_reverse_dropWhile_reverse pyIsSpace m hmm
  rw [hDS]
  have hRS : S.reverse = m.reverse.dropWhile pyIsSpace := by
    rw [hS, List.reverse_reverse]
  rw [hRS, dropWhile_dropWhile pyIsSpace m.reverse, ← hRS, List.reverse_reverse]

/-! # Chunker claims -/

theorem chunk_text_of_le (t : List Char) (ms ov fuel : Nat) (h : t.length ≤ ms) :
    chunk_text t ms ov fuel = some [t] := by
  unfold chunk_text
  rw [if_pos h]

/-- C7: for every input text with `len(text) <= max_size`, `chunk_text`
returns exactly a one-element sequence whose single element is the whole
input text. -/
theorem c7_short_input (t : List Char) (ms ov fuel : Nat) (h : t.length ≤ ms) :
    chunk_text t ms ov fuel = some [t] :=
  chunk_text_of_le t ms ov fuel h

theorem c7_witness :
    ("abc".toList).length ≤ 10 ∧ chunk_text ("abc".toList) 10 2 0 = some [("abc".toList)] :=
  ⟨by decide, c7_short_input ("abc".toList) 10 2 0 (by decide)⟩

/-- Every chunk the windowing loop emits is non-empty and fixed by
`pyStrip`. -/
theorem chunkLoop_stripped (t : List Char) (ms ov : Nat) :
    ∀ fuel (s : Int) (cs : List (List Char)), chunkLoop t ms ov fuel s = some cs →
      ∀ c ∈ cs, c ≠ [] ∧ pyStrip c = c
  | 0, _, _, h => by simp [chunkLoop] at h
  | fuel + 1, s, cs, h => by
    rw [chunkLoop] at h
    by_cases hs : s < (t.length : Int)
    · rw [if_pos hs] at h
      cases hrec : chunkLoop t ms ov fuel (nextStart t ms ov s) with
      | none => rw [hrec] at h; exact absurd h (by simp)
      | some rest =>
        rw [hrec] at h
        simp only [Option.some.injEq] at h
        subst h
        intro c hc
        by_cases hz : stepChunk t ms s = []
        · rw [if_pos hz] at hc
          exact chunkLoop_stripped t ms ov fuel _ rest hrec c hc
        · rw [if_neg hz] at hc
          cases hc with
          | head => exact ⟨hz, pyStrip_idem _⟩
          | tail _ hmem => exact chunkLoop_stripped t ms ov fuel _ rest hrec c hmem
    · rw [if_neg hs] at h
      simp only [Option.some.injEq] at h
      subst h
      intro c hc
      exact absurd hc (List.not_mem_nil c)

/-- C10: the trim-and-discard-empty rule applies only on the multi-window
path.  When `len(text) > max_size` every emitted chunk is stripped and
non-empty; when `len(text) <= max_size` the input comes back verbatim as a
one-element sequence, untrimmed (so it may be empty after trimming). -/
theorem c10_trim_only_multiwindow (t : List Char) (ms ov fuel : Nat) (cs : List (List Char))
    (h : chunk_text t ms ov fuel = some cs) :
    (t.length ≤ ms → cs = [t]) ∧ (ms < t.length → ∀ c ∈ cs, c ≠ [] ∧ pyStrip c = c) := by
  constructor
  · intro hle
    rw [chunk_text_of_le t ms ov fuel hle] at h
    exact (Option.some_inj.mp h).symm
  · intro hgt
    unfold chunk_text at h
    rw [if_neg (by omega)] at h
    exact chunkLoop_stripped t ms ov fuel 0 cs h

theorem c10_witness :
    ([' ', ' '] : List Char).length ≤ 10 ∧
    chunk_text [' ', ' '] 10 2 1 = some [[' ', ' ']] ∧
    pyStrip [' ', ' '] = [] ∧
    10 < ("aaaaaaa.aaa".toList).length ∧
    ("aaaaaaa.".toList ≠ [] ∧ pyStrip ("aaaaaaa.".toList) = "aaaaaaa.".toList) := by
  refine ⟨by decide, by decide, by decide, by decide, ?_⟩
  exact (c10_trim_only_multiwindow ("aaaaaaa.aaa".toList) 10 2 100
    ([("aaaaaaa.".toList), ("a.aaa".toList)]) (by decide)).2 (by decide)
    ("aaaaaaa.".toList) (by decide)

/-- `rfind` agrees with the semantically defined last occurrence. -/
theorem rfind_eq_lastOccSem (w pat : List Char) :
    rfind w pat = match lastOccSem w pat with
      | some k => (k : Int)
      | none => -1 := by
  unfold rfind lastOccSem
  rw [find?_reverse_eq_getLast?_filter]

/-- The code's delimiter scan computes exactly the spec-side cut scan. -/
theorem findDelimAux_eq_specCutAux (w : List Char) (ms : Nat) :
    ∀ ds : List (List Char),
      findDelimAux w ms ds = (specCutAux w ms ds).map (fun k => (k : Int))
  | [] => rfl
  | d :: ds => by
    have ih := findDelimAux_eq_specCutAux w ms ds
    cases hL : lastOccSem w d with
    | none =>
      have hr : rfind w d = -1 := by rw [rfind_eq_lastOccSem w d, hL]
      simp only [findDelimAux, specCutAux, hr, hL]
      rw [if_neg (by omega : ¬ ((-1 : Int) * 10 > (ms : Int) * 6))]
      exact ih
    | some k =>
      have hr : rfind w d = (k : Int) := by rw [rfind_eq_lastOccSem w d, hL]
      simp only [findDelimAux, specCutAux, hr, hL]
      by_cases hc : 10 * k > 6 * ms
      · rw [if_pos (by omega : ((k : Int) * 10 > (ms : Int) * 6)), if_pos hc]
        rfl
      · rw [if_neg (by omega : ¬ ((k : Int) * 10 > (ms : Int) * 6)), if_neg hc]
        exact ih

/-- C8: for a window whose hard end lies strictly inside the text, the cut
point equals the spec-side rule: scan the ordered terminator preference
list for a last occurrence lying beyond 60% of `max_size`, cut right after
it, and otherwise cut at the hard boundary `start + max_size`. -/
theorem c8_cut_rule (t : List Char) (ms : Nat) (start : Int)
    (h : start + (ms : Int) < (t.length : Int)) :
    windowEnd t ms start = specWindowEnd t ms start := by
  unfold windowEnd specWindowEnd specCut
  rw [if_pos h, findDelim, findDelimAux_eq_specCutAux]
  cases specCutAux (pySlice t start (start + (ms : Int))) ms delimiters <;> rfl

theorem c8_witness :
    ((0 : Int) + ((5 : Nat) : Int) < (("ab.cd.efghij".toList).length : Int)) ∧
    windowEnd ("ab.cd.efghij".toList) 5 0 = specWindowEnd ("ab.cd.efghij".toList) 5 0 :=
  ⟨by decide, c8_cut_rule ("ab.cd.efghij".toList) 5 0 (by decide)⟩

/-! ## C4: termination and forward progress of the windowing loop -/

theorem isPrefixOf_ne_nil {α : Type} [BEq α] (pat l : List α)
    (h : pat.isPrefixOf l = true) (hp : pat ≠ []) : l ≠ [] := by
  cases l with
  | nil =>
    cases pat with
    | nil => exact absurd rfl hp
    | cons a as => simp [List.isPrefixOf] at h
  | cons b bs => simp

theorem rfind_spec (w pat : List Char) (k : Nat) (h : rfind w pat = (k : Int)) :
    pat.isPrefixOf (w.drop k) = true ∧ k ≤ w.length := by
  cases hf : (List.range (w.length + 1)).reverse.find? (fun i => pat.isPrefixOf (w.drop i)) with
  | none =>
    have hneg : rfind w pat = -1 := by unfold rfind; rw [hf]
    rw [hneg] at h
    exact absurd h (by omega)
  | some j =>
    have hpos : rfind w pat = (j : Int) := by unfold rfind; rw [hf]
    have hjk : (j : Int) = (k : Int) := by rw [← hpos, h]
    have hj : j = k := by exact_mod_cast hjk
    subst hj
    refine ⟨by simpa using List.find?_some hf, ?_⟩
    have hm := List.mem_of_find?_eq_some hf
    rw [List.mem_reverse] at hm
    have := List.mem_range.mp hm
    omega

theorem delimiters_ne_nil : ∀ d ∈ delimiters, d ≠ [] := by decide

theorem findDelimAux_bound (w : List Char) (ms : Nat) :
    ∀ ds : List (List Char), (∀ d ∈ ds, d ≠ []) →
      ∀ x : Int, findDelimAux w ms ds = some x →
        (ms : Int) * 6 < x * 10 ∧ 0 ≤ x ∧ x.toNat < w.length
  | [], _, x, h => by simp [findDelimAux] at h
  | d :: ds, hne, x, h => by
    simp only [findDelimAux] at h
    split at h
    · rename_i hc
      have hx : rfind w d = x := Option.some_inj.mp h
      rw [hx] at hc
      have hx0 : 0 ≤ x := by omega
      have hocc := rfind_spec w d x.toNat
        (by rw [hx]; exact (Int.toNat_of_nonneg hx0).symm)
      have hdrop : w.drop x.toNat ≠ [] :=
        isPrefixOf_ne_nil d _ hocc.1 (hne d (List.mem_cons_self d ds))
      have hlt : x.toNat < w.length := by
        by_contra hge
        exact hdrop (List.drop_eq_nil_iff.mpr (by omega))
      exact ⟨by omega, hx0, hlt⟩
    · exact findDelimAux_bound w ms ds (fun e he => hne e (List.mem_cons_of_mem d he)) x h

theorem windowEnd_of_ge (t : List Char) (ms : Nat) (s : Int)
    (h : ¬ s + (ms : Int) < (t.length : Int)) : windowEnd t ms s = s + (ms : Int) := by
  unfold windowEnd
  rw [if_neg h]

theorem windowEnd_of_none (t : List Char) (ms : Nat) (s : Int)
    (hlt : s + (ms : Int) < (t.length : Int))
    (hd : findDelim (pySlice t s (s + (ms : Int))) ms = none) :
    windowEnd t ms s = s + (ms : Int) := by
  unfold windowEnd
  rw [if_pos hlt]
  simp only [hd]

theorem windowEnd_of_some (t : List Char) (ms : Nat) (s ld : Int)
    (hlt : s + (ms : Int) < (t.length : Int))
    (hd : findDelim (pySlice t s (s + (ms : Int))) ms = some ld) :
    windowEnd t ms s = s + ld + 1 := by
  unfold windowEnd
  rw [if_pos hlt]
  simp only [hd]

theorem pySlice_window_length (t : List Char) (ms : Nat) (s : Int)
    (h0 : 0 ≤ s) (h1 : s + (ms : Int) < (t.length : Int)) :
    (pySlice t s (s + (ms : Int))).length = ms := by
  unfold pySlice pyIdx
  rw [if_neg (by omega : ¬ (s + (ms : Int) < 0)), if_neg (by omega : ¬ (s < 0))]
  rw [List.length_drop, List.length_take]
  omega

/-- Forward progress of the loop under the amended side condition
`overlap ≤ 60% of max_size`: from any non-negative start the next start
either advances by at least one or leaves the text. -/
theorem nextStart_progress (t : List Char) (ms ov : Nat) (hov : ov < ms)
    (hthr : 10 * ov ≤ 6 * ms) (s : Int) (h0 : 0 ≤ s) :
    s + 1 ≤ nextStart t ms ov s ∨ (t.length : Int) ≤ nextStart t ms ov s := by
  by_cases hlt : s + (ms : Int) < (t.length : Int)
  · cases hd : findDelim (pySlice t s (s + (ms : Int))) ms with
    | none =>
      have hE := windowEnd_of_none t ms s hlt hd
      unfold nextStart
      rw [hE, if_pos hlt]
      left
      omega
    | some ld =>
      have hb := findDelimAux_bound (pySlice t s (s + (ms : Int))) ms delimiters
        delimiters_ne_nil ld hd
      have hw := pySlice_window_length t ms s h0 hlt
      have hldms : ld < (ms : Int) := by
        have h2 := hb.2.2
        rw [hw] at h2
        omega
      have hE := windowEnd_of_some t ms s ld hlt hd
      unfold nextStart
      rw [hE, if_pos (by omega : s + ld + 1 < (t.length : Int))]
      left
      omega
  · have hE := windowEnd_of_ge t ms s hlt
    unfold nextStart
    rw [hE, if_neg hlt]
    right
    omega

/-- With fuel one more than the remaining distance, the loop completes. -/
theorem chunkLoop_terminates (t : List Char) (ms ov : Nat) (hov : ov < ms)
    (hthr : 10 * ov ≤ 6 * ms) :
    ∀ (fuel : Nat) (s : Int), 0 ≤ s → (t.length : Int) ≤ s + (fuel : Int) →
      (chunkLoop t ms ov (fuel + 1) s).isSome := by
  intro fuel
  induction fuel with
  | zero =>
    intro s h0 hle
    rw [chunkLoop, if_neg (by push_cast at hle ⊢; omega : ¬ s < (t.length : Int))]
    simp
  | succ f ih =>
    intro s h0 hle
    rw [chunkLoop]
    by_cases hs : s < (t.length : Int)
    · rw [if_pos hs]
      have hp := nextStart_progress t ms ov hov hthr s h0
      have h0' : 0 ≤ nextStart t ms ov s := by
        rcases hp with h | h
        · omega
        · have : (0 : Int) ≤ (t.length : Int) := by omega
          omega
      have hIH := ih (nextStart t ms ov s) h0'
        (by push_cast at hle ⊢; rcases hp with h | h <;> omega)
      obtain ⟨rest, hrest⟩ := Option.isSome_iff_exists.mp hIH
      rw [hrest]
      simp
    · rw [if_neg hs]
      simp

theorem chunkStarts_head (t : List Char) (ms ov : Nat) (fuel : Nat) (s y : Int)
    (h : (chunkStarts t ms ov fuel s).head? = some y) : y = s ∧ s < (t.length : Int) := by
  cases fuel with
  | zero => simp [chunkStarts] at h
  | succ f =>
    rw [chunkStarts] at h
    by_cases hs : s < (t.length : Int)
    · rw [if_pos hs] at h
      simp only [List.head?_cons, Option.some.injEq] at h
      exact ⟨h.symm, hs⟩
    · rw [if_neg hs] at h
      simp at h

/-- The visited start positions are strictly increasing. -/
theorem chunkStarts_chain (t : List Char) (ms ov : Nat) (hov : ov < ms)
    (hthr : 10 * ov ≤ 6 * ms) :
    ∀ fuel (s : Int), 0 ≤ s →
      List.Chain' (fun a b : Int => a < b) (chunkStarts t ms ov fuel s)
  | 0, s, h0 => by simp [chunkStarts]
  | fuel + 1, s, h0 => by
    rw [chunkStarts]
    by_cases hs : s < (t.length : Int)
    · rw [if_pos hs]
      have hp := nextStart_progress t ms ov hov hthr s h0
      have h0' : 0 ≤ nextStart t ms ov s := by
        rcases hp with h | h
        · omega
        · have : (0 : Int) ≤ (t.length : Int) := by omega
          omega
      rw [List.chain'_cons']
      refine ⟨?_, chunkStarts_chain t ms ov hov hthr fuel _ h0'⟩
      intro y hy
      obtain ⟨rfl, hlt⟩ := chunkStarts_head t ms ov fuel _ y hy
      rcases hp with h | h
      · omega
      · omega
    · rw [if_neg hs]
      exact List.chain'_nil

/-- C4 (amended): for `overlap < max_size` **and** `overlap` at most 60% of
`max_size` (`10 * overlap ≤ 6 * max_size`), `chunk_text` terminates within
`len(text) + 1` loop iterations and the visited window start positions are
strictly increasing. -/
theorem c4_amended_progress (t : List Char) (ms ov : Nat) (hov : ov < ms)
    (hthr : 10 * ov ≤ 6 * ms) :
    (chunk_text t ms ov (t.length + 1)).isSome ∧
    List.Chain' (fun a b : Int => a < b) (chunkStarts t ms ov (t.length + 1) 0) := by
  constructor
  · unfold chunk_text
    by_cases hle : t.length ≤ ms
    · rw [if_pos hle]
      simp
    · rw [if_neg hle]
      exact chunkLoop_terminates t ms ov hov hthr t.length 0 (le_refl 0) (by omega)
  · exact chunkStarts_chain t ms ov hov hthr (t.length + 1) 0 (le_refl 0)

theorem c4_witness :
    (2 < 5 ∧ 10 * 2 ≤ 6 * 5) ∧
    ((chunk_text ("ab.cdefg".toList) 5 2 (("ab.cdefg".toList).length + 1)).isSome ∧
     List.Chain' (fun a b : Int => a < b)
       (chunkStarts ("ab.cdefg".toList) 5 2 (("ab.cdefg".toList).length + 1) 0)) :=
  ⟨by decide, c4_amended_progress ("ab.cdefg".toList) 5 2 (by decide) (by decide)⟩

/-- For `max_size = 10`, `overlap = 9` (valid per the claim: `0 ≤ overlap <
max_size`) on the text `aaaaaaa.aaa`, the loop revisits start 0 forever:
`0 → -1 → 0 → …`, never terminating. -/
theorem chunkLoop_cycle_none :
    ∀ fuel, chunkLoop ("aaaaaaa.aaa".toList) 10 9 fuel 0 = none ∧
      chunkLoop ("aaaaaaa.aaa".toList) 10 9 fuel (-1) = none
  | 0 => ⟨rfl, rfl⟩
  | fuel + 1 => by
    obtain ⟨ih0, ih1⟩ := chunkLoop_cycle_none fuel
    constructor
    · rw [chunkLoop, if_pos (by decide)]
      rw [(by decide : nextStart ("aaaaaaa.aaa".toList) 10 9 0 = -1), ih1]
    · rw [chunkLoop, if_pos (by decide)]
      rw [(by decide : nextStart ("aaaaaaa.aaa".toList) 10 9 (-1) = 0), ih0]

/-- C4 counterexample: with `max_size = 10 > overlap = 9 ≥ 0` the visited
start positions on `aaaaaaa.aaa` are `0, -1, 0` — not strictly increasing
(the accepted sentence cut at index 7 advances `start` by `7 + 1 - 9 = -1`),
and the loop never exits within its fuel. -/
theorem c4_counterexample :
    ((9 : Nat) < 10 ∧ (0 : Nat) ≤ 9) ∧
    chunkStarts ("aaaaaaa.aaa".toList) 10 9 3 0 = [0, -1, 0] ∧
    ¬ List.Chain' (fun a b : Int => a < b) (chunkStarts ("aaaaaaa.aaa".toList) 10 9 3 0) ∧
    chunk_text ("aaaaaaa.aaa".toList) 10 9 50 = none := by
  refine ⟨by decide, by decide, ?_, by decide⟩
  intro hch
  rw [(by decide : chunkStarts ("aaaaaaa.aaa".toList) 10 9 3 0 = ([0, -1, 0] : List Int))] at hch
  exact absurd (List.chain'_cons.mp hch).1 (by decide)

/-! ## Index-manager lemmas -/

/-- When the insert loop completes, it has advanced the counter once per
element, built pending rows with consecutive fresh ids `counter+1 …`, and
the matching `doc_<id>` strings. -/
theorem addLoop_ok_spec (existing : List Nat) (oracle : Option Nat) :
    ∀ (xs : List (String × String × String × Nat)) (counter i : Nat),
      (addLoop existing oracle xs counter i).2.2.2 = true →
      (addLoop existing oracle xs counter i).1 = counter + xs.length ∧
      (addLoop existing oracle xs counter i).2.1.map (fun r => r.id) =
        List.range' (counter + 1) xs.length ∧
      (addLoop existing oracle xs counter i).2.2.1 =
        (List.range' (counter + 1) xs.length).map docIdStr ∧
      (∀ r ∈ (addLoop existing oracle xs counter i).2.1, r.doc_id = docIdStr r.id) ∧
      (∀ k ∈ List.range' (counter + 1) xs.length, k ∉ existing)
  | [], counter, i, _ => by
    refine ⟨rfl, rfl, rfl, ?_, ?_⟩
    · intro r hr
      simp [addLoop] at hr
    · intro k hk
      simp [List.range'] at hk
  | x :: xs, counter, i, hflag => by
    by_cases hcond : oracle = some i ∨ counter + 1 ∈ existing
    · rw [addLoop] at hflag
      simp only [if_pos hcond] at hflag
      cases hflag
    · rw [addLoop] at hflag
      simp only [if_neg hcond] at hflag
      have ih := addLoop_ok_spec existing oracle xs (counter + 1) (i + 1) hflag
      rw [addLoop]
      simp only [if_neg hcond]
      push_neg at hcond
      refine ⟨?_, ?_, ?_, ?_, ?_⟩
      · rw [ih.1]
        simp only [List.length_cons]
        omega
      · simp only [List.map_cons, ih.2.1]
        have : List.range' (counter + 1) (xs.length + 1) =
            (counter + 1) :: List.range' (counter + 2) xs.length := rfl
        rw [List.length_cons, this]
        rfl
      · simp only [ih.2.2.1]
        have : List.range' (counter + 1) (xs.length + 1) =
            (counter + 1) :: List.range' (counter + 2) xs.length := rfl
        rw [List.length_cons, this]
        rfl
      · intro r hr
        simp only [List.mem_cons] at hr
        cases hr with
        | inl h => rw [h]; rfl
        | inr h => exact ih.2.2.2.1 r h
      · intro k hk
        rw [List.length_cons] at hk
        rw [List.mem_range'_1] at hk
        by_cases hke : k = counter + 1
        · rw [hke]
          exact hcond.2
        · exact ih.2.2.2.2 k (List.mem_range'_1.mpr (by omega))

/-- With no injected insert failure and every existing id at most the
counter, the insert loop completes. -/
theorem addLoop_noFail_ok (existing : List Nat) :
    ∀ (xs : List (String × String × String × Nat)) (counter i : Nat),
      (∀ k ∈ existing, k ≤ counter) →
      (addLoop existing none xs counter i).2.2.2 = true
  | [], _, _, _ => rfl
  | x :: xs, counter, i, hmax => by
    have hcond : ¬ ((none : Option Nat) = some i ∨ counter + 1 ∈ existing) := by
      push_neg
      refine ⟨by simp, fun hmem => ?_⟩
      exact absurd (hmax _ hmem) (by omega)
    rw [addLoop]
    simp only [if_neg hcond]
    exact addLoop_noFail_ok existing xs (counter + 1) (i + 1)
      (fun k hk => le_trans (hmax k hk) (by omega))


theorem addLoopOf_ok_spec (st : MgrState) (texts langs files : List String)
    (cidxs : List Nat) (fs : FailSpec)
    (h : (addLoopOf st texts langs files cidxs fs).2.2.2 = true) :
    (addLoopOf st texts langs files cidxs fs).1 =
      st.counter + (zip4 texts langs files cidxs).length ∧
    (addLoopOf st texts langs files cidxs fs).2.1.map (fun r => r.id) =
      List.range' (st.counter + 1) (zip4 texts langs files cidxs).length ∧
    (addLoopOf st texts langs files cidxs fs).2.2.1 =
      (List.range' (st.counter + 1) (zip4 texts langs files cidxs).length).map docIdStr ∧
    (∀ r ∈ (addLoopOf st texts langs files cidxs fs).2.1, r.doc_id = docIdStr r.id) ∧
    (∀ k ∈ List.range' (st.counter + 1) (zip4 texts langs files cidxs).length,
      k ∉ st.rows.map (fun r => r.id)) := by
  unfold addLoopOf at h ⊢
  exact addLoop_ok_spec (st.rows.map (fun row => row.id)) fs.insertFail
    (zip4 texts langs files cidxs) st.counter 0 h

/-- Full effect of a successful `add_documents` call. -/
theorem add_documents_ok_effect (st : MgrState) (texts : List String) (embs : List Vec)
    (langs files : List String) (cidxs : List Nat) (fs : FailSpec) (st' : MgrState)
    (ids : List String)
    (h : add_documents st texts embs langs files cidxs fs = (st', .ok ids)) :
    st'.rows = st.rows ++ (addLoopOf st texts langs files cidxs fs).2.1 ∧
    st'.vectors = st.vectors ++ embs ∧
    st'.counter = st.counter + (zip4 texts langs files cidxs).length ∧
    st'.fileVec = st.fileVec ∧
    st'.rows.map (fun r => r.id) =
      st.rows.map (fun r => r.id) ++
        List.range' (st.counter + 1) (zip4 texts langs files cidxs).length ∧
    ids = (List.range' (st.counter + 1) (zip4 texts langs files cidxs).length).map docIdStr ∧
    (∀ r ∈ (addLoopOf st texts langs files cidxs fs).2.1, r.doc_id = docIdStr r.id) ∧
    (∀ k ∈ List.range' (st.counter + 1) (zip4 texts langs files cidxs).length,
      k ∉ st.rows.map (fun r => r.id)) := by
  unfold add_documents at h
  split at h
  · exact absurd (congrArg Prod.snd h) (by simp)
  · split at h
    · exact absurd (congrArg Prod.snd h) (by simp)
    · split at h
      · exact absurd (congrArg Prod.snd h) (by simp)
      · split at h
        · exact absurd (congrArg Prod.snd h) (by simp)
        · rename_i h1 hflag haf hcf
          have hflag' : (addLoopOf st texts langs files cidxs fs).2.2.2 = true := by
            revert hflag
            cases (addLoopOf st texts langs files cidxs fs).2.2.2 <;> simp
          have hs := addLoopOf_ok_spec st texts langs files cidxs fs hflag'
          have hfst := congrArg Prod.fst h
          have hsnd := congrArg Prod.snd h
          simp only at hfst hsnd
          refine ⟨?_, ?_, ?_, ?_, ?_, ?_, hs.2.2.2.1, hs.2.2.2.2⟩
          · rw [← hfst]
          · rw [← hfst]
          · rw [← hfst]
            exact hs.1
          · rw [← hfst]
          · rw [← hfst]
            simp only [List.map_append, hs.2.1]
          · cases hsnd
            exact hs.2.2.1

/-- C1 (amended): `add_documents` checks only that `texts` and `embeddings`
have equal length; that mismatch fails with the `ArityMismatch` error
(the `ValueError` of the code) leaving the state untouched.  Mismatches
among the other three sequences are not detected: a call that passes the
texts/embeddings check and succeeds inserts one metadata row per element
of the truncating four-way zip while appending **all** embedding vectors. -/
theorem c1_arity_check (st : MgrState) (texts : List String) (embs : List Vec)
    (langs files : List String) (cidxs : List Nat) (fs : FailSpec) :
    (texts.length ≠ embs.length →
      add_documents st texts embs langs files cidxs fs = (st, .arityMismatch)) ∧
    (∀ st' ids, add_documents st texts embs langs files cidxs fs = (st', .ok ids) →
      st'.rows.length = st.rows.length + (zip4 texts langs files cidxs).length ∧
      st'.vectors = st.vectors ++ embs) := by
  constructor
  · intro hne
    unfold add_documents
    rw [if_pos hne]
  · intro st' ids h
    have he := add_documents_ok_effect st texts embs langs files cidxs fs st' ids h
    refine ⟨?_, he.2.1⟩
    have hlen := congrArg List.length he.2.2.2.2.1
    simp only [List.length_map, List.length_append, List.length_range'] at hlen
    omega

/-- C1 counterexample: the spec scenario — `texts` length 3, `languages`
length 2, equal-length `embeddings` — does **not** fail: the call returns
ok with two doc ids, inserts 2 metadata rows (`count()` changes from 0
to 2) and appends all 3 vectors. -/
theorem c1_counterexample :
    (add_documents st0 (["a", "b", "c"]) ([[1], [2], [3]]) (["en", "en"]) (["f", "f"])
        ([0, 1]) noFail).2 = .ok (["doc_1", "doc_2"]) ∧
    (add_documents st0 (["a", "b", "c"]) ([[1], [2], [3]]) (["en", "en"]) (["f", "f"])
        ([0, 1]) noFail).1.rows.length = 2 ∧
    (add_documents st0 (["a", "b", "c"]) ([[1], [2], [3]]) (["en", "en"]) (["f", "f"])
        ([0, 1]) noFail).1.vectors.length = 3 ∧
    st0.rows.length = 0 := by
  exact ⟨by decide, by decide, by decide, rfl⟩

theorem c1_witness :
    ((["a"] : List String).length ≠ ([] : List Vec).length ∧
      add_documents st0 (["a"]) ([]) (["en"]) (["f"]) ([0]) noFail = (st0, .arityMismatch)) ∧
    (add_documents st0 (["a", "b"]) ([[5], [9]]) (["en", "ja"]) (["f", "g"]) ([0, 1])
        noFail = (exStA, .ok (["doc_1", "doc_2"])) →
      exStA.rows.length = st0.rows.length +
        (zip4 (["a", "b"]) (["en", "ja"]) (["f", "g"]) ([0, 1])).length ∧
      exStA.vectors = st0.vectors ++ ([[5], [9]] : List Vec)) :=
  ⟨⟨by decide, (c1_arity_check st0 (["a"]) ([]) (["en"]) (["f"]) ([0]) noFail).1 (by decide)⟩,
    (c1_arity_check st0 (["a", "b"]) ([[5], [9]]) (["en", "ja"]) (["f", "g"]) ([0, 1])
      noFail).2 exStA (["doc_1", "doc_2"])⟩

/-- C2: when a row insert or the vector append fails, the whole batch rolls
back — metadata rows and vectors after the failed call are exactly what
they were before it (only the volatile id counter moved), so both stores'
counts are unchanged. -/
theorem c2_all_or_nothing (st : MgrState) (texts : List String) (embs : List Vec)
    (langs files : List String) (cidxs : List Nat) (fs : FailSpec) (st' : MgrState)
    (res : AddResult) (h : add_documents st texts embs langs files cidxs fs = (st', res))
    (hres : res = .insertError ∨ res = .addError) :
    st'.rows = st.rows ∧ st'.vectors = st.vectors ∧
    st'.rows.length = st.rows.length ∧ st'.vectors.length = st.vectors.length := by
  unfold add_documents at h
  split at h
  · have := congrArg Prod.snd h
    simp only at this
    rcases hres with hr | hr <;> rw [hr] at this <;> cases this
  · split at h
    · have hfst := congrArg Prod.fst h
      simp only at hfst
      rw [← hfst]
      exact ⟨rfl, rfl, rfl, rfl⟩
    · split at h
      · have hfst := congrArg Prod.fst h
        simp only at hfst
        rw [← hfst]
        exact ⟨rfl, rfl, rfl, rfl⟩
      · split at h
        · have := congrArg Prod.snd h
          simp only at this
          rcases hres with hr | hr <;> rw [hr] at this <;> cases this
        · have := congrArg Prod.snd h
          simp only at this
          rcases hres with hr | hr <;> rw [hr] at this <;> cases this

theorem c2_witness :
    (add_documents st0 (["a"]) ([[1]]) (["en"]) (["f"]) ([0]) ⟨some 0, false, false⟩).2 =
      .insertError ∧
    ((add_documents st0 (["a"]) ([[1]]) (["en"]) (["f"]) ([0])
        ⟨some 0, false, false⟩).1.rows = st0.rows ∧
      (add_documents st0 (["a"]) ([[1]]) (["en"]) (["f"]) ([0])
        ⟨some 0, false, false⟩).1.vectors = st0.vectors ∧
      (add_documents st0 (["a"]) ([[1]]) (["en"]) (["f"]) ([0])
        ⟨some 0, false, false⟩).1.rows.length = st0.rows.length ∧
      (add_documents st0 (["a"]) ([[1]]) (["en"]) (["f"]) ([0])
        ⟨some 0, false, false⟩).1.vectors.length = st0.vectors.length) :=
  ⟨by decide,
    c2_all_or_nothing st0 (["a"]) ([[1]]) (["en"]) (["f"]) ([0]) ⟨some 0, false, false⟩
      _ _ rfl (Or.inl (by decide))⟩

theorem zip4_length_eq (a b c : List String) (d : List Nat)
    (h1 : a.length = b.length) (h2 : b.length = c.length) (h3 : c.length = d.length) :
    (zip4 a b c d).length = a.length := by
  unfold zip4
  rw [List.length_zip, List.length_zip, List.length_zip]
  omega

/-- A no-failure call with the texts/embeddings check passed takes the
success branch. -/
theorem add_documents_noFail_ok (st : MgrState) (texts : List String) (embs : List Vec)
    (langs files : List String) (cidxs : List Nat)
    (hmax : ∀ k ∈ st.rows.map (fun r => r.id), k ≤ st.counter)
    (hlen : texts.length = embs.length) :
    add_documents st texts embs langs files cidxs noFail =
      (⟨st.rows ++ (addLoopOf st texts langs files cidxs noFail).2.1, st.vectors ++ embs,
        (addLoopOf st texts langs files cidxs noFail).1, st.fileVec⟩,
       .ok (addLoopOf st texts langs files cidxs noFail).2.2.1) := by
  have hflag : (addLoopOf st texts langs files cidxs noFail).2.2.2 = true := by
    unfold addLoopOf
    exact addLoop_noFail_ok _ _ _ _ (by
      intro k hk
      exact hmax k (by simpa using hk))
  unfold add_documents
  rw [if_neg (by simp [hlen]), if_neg (by simp [hflag]),
    if_neg (by simp [noFail]), if_neg (by simp [noFail])]

/-- One operation preserves structural alignment (contiguous ids `1..n`,
counter at `n`, equal vector count) when the call has equal-arity inputs,
no injected failure, and is not a restart. -/
theorem stepOp_aligned (st : MgrState) (op : Op)
    (hA : IdAligned st ∧ st.vectors.length = st.rows.length)
    (hop : equalArity op ∧ happyOp op) :
    IdAligned (stepOp st op) ∧
      (stepOp st op).vectors.length = (stepOp st op).rows.length := by
  obtain ⟨⟨hid, hcnt⟩, hvec⟩ := hA
  cases op with
  | add texts embs langs files cidxs fs =>
    obtain ⟨harr, hfs⟩ := hop
    have hfs' : fs = noFail := hfs
    subst hfs'
    have hmax : ∀ k ∈ st.rows.map (fun r => r.id), k ≤ st.counter := by
      intro k hk
      rw [hid] at hk
      rw [List.mem_range'_1] at hk
      omega
    have hstep := add_documents_noFail_ok st texts embs langs files cidxs hmax harr.1
    have hflag : (addLoopOf st texts langs files cidxs noFail).2.2.2 = true := by
      unfold addLoopOf
      exact addLoop_noFail_ok _ _ _ _ (by
        intro k hk
        exact hmax k (by simpa using hk))
    have hs := addLoopOf_ok_spec st texts langs files cidxs noFail hflag
    have hm : (zip4 texts langs files cidxs).length = texts.length :=
      zip4_length_eq texts langs files cidxs (harr.1.trans harr.2.1) harr.2.2.1 harr.2.2.2
    have hplen : (addLoopOf st texts langs files cidxs noFail).2.1.length =
        (zip4 texts langs files cidxs).length := by
      have := congrArg List.length hs.2.1
      simpa using this
    simp only [stepOp, hstep]
    refine ⟨⟨?_, ?_⟩, ?_⟩
    · simp only [List.map_append, hs.2.1, hid, hcnt, List.length_append, hplen, hm]
      have h1 : st.rows.length + 1 = 1 + st.rows.length := by omega
      rw [h1, List.range'_append_1 1 st.rows.length texts.length, Nat.add_comm]
    · simp only [List.length_append, hs.1, hcnt, hplen, hm]
    · have h1 : (addLoopOf st texts langs files cidxs noFail).2.1.length = texts.length := by
        rw [hplen, hm]
      have h2 : embs.length = texts.length := harr.1.symm
      simp only [List.length_append]
      omega
  | search q k => exact ⟨⟨hid, hcnt⟩, hvec⟩
  | persist =>
    simp only [stepOp, persistMgr]
    split
    · exact ⟨⟨hid, hcnt⟩, hvec⟩
    · exact ⟨⟨hid, hcnt⟩, hvec⟩
  | stats => exact ⟨⟨hid, hcnt⟩, hvec⟩
  | restart ok => exact absurd hop.2 (by simp [happyOp])

theorem run_aligned_aux :
    ∀ (ops : List Op) (st : MgrState),
      IdAligned st ∧ st.vectors.length = st.rows.length →
      (∀ op ∈ ops, equalArity op ∧ happyOp op) →
      IdAligned (ops.foldl stepOp st) ∧
        (ops.foldl stepOp st).vectors.length = (ops.foldl stepOp st).rows.length
  | [], _, hA, _ => hA
  | op :: ops, st, hA, hops => by
    rw [List.foldl_cons]
    exact run_aligned_aux ops (stepOp st op)
      (stepOp_aligned st op hA (hops op (List.mem_cons_self op ops)))
      (fun o ho => hops o (List.mem_cons_of_mem op ho))

/-- C3 (amended): over every sequence of manager operations in which each
add has five equal-length input sequences and no injected failure (and no
restart occurs), after each call returns the metadata row count equals
the vector count, and a row with id `k` exists iff the vector index holds
position `k-1` — the pairing `search` relies on when it looks up the row
with id `idx + 1` for the vector at position `idx`. -/
theorem c3_invariant_amended (ops : List Op)
    (hops : ∀ op ∈ ops, equalArity op ∧ happyOp op) :
    StoreInv (run ops) := by
  have hA := run_aligned_aux ops st0 ⟨⟨rfl, rfl⟩, rfl⟩ hops
  obtain ⟨⟨hid, hcnt⟩, hvec⟩ := hA
  unfold run at *
  refine ⟨hvec.symm, ?_⟩
  intro k
  constructor
  · rintro ⟨r, hr, rfl⟩
    have hmem : r.id ∈ (ops.foldl stepOp st0).rows.map (fun r => r.id) :=
      List.mem_map_of_mem _ hr
    rw [hid, List.mem_range'_1] at hmem
    omega
  · rintro ⟨hk1, hk2⟩
    have hmem : k ∈ (ops.foldl stepOp st0).rows.map (fun r => r.id) := by
      rw [hid, List.mem_range'_1]
      omega
    obtain ⟨r, hr, hrk⟩ := List.mem_map.mp hmem
    exact ⟨r, hr, hrk⟩

/-- C3 counterexample: one mismatched-arity add (texts/embeddings length 3,
languages/filenames/chunk-indices length 2) returns successfully and leaves
2 metadata rows against 3 vectors — the invariant is broken at a call
boundary. -/
theorem c3_counterexample : ¬ StoreInv (run [exMismatchedAdd]) := by
  intro h
  have h1 := h.1
  rw [(by decide : (run [exMismatchedAdd]).rows.length = 2),
    (by decide : (run [exMismatchedAdd]).vectors.length = 3)] at h1
  exact (by decide : (2 : Nat) ≠ 3) h1

theorem c3_witness : StoreInv (run [exGoodAdd]) :=
  c3_invariant_amended [exGoodAdd] (by
    intro op hop
    rw [List.mem_singleton] at hop
    subst hop
    exact ⟨⟨rfl, rfl, rfl, rfl⟩, rfl⟩)

/-! ## C6: id assignment, doc_id format, uniqueness, counter recovery -/

theorem add_documents_rows_cases (st : MgrState) (texts : List String) (embs : List Vec)
    (langs files : List String) (cidxs : List Nat) (fs : FailSpec) :
    (add_documents st texts embs langs files cidxs fs).1.rows = st.rows ∨
    ((add_documents st texts embs langs files cidxs fs).1.rows =
      st.rows ++ (addLoopOf st texts langs files cidxs fs).2.1 ∧
      (addLoopOf st texts langs files cidxs fs).2.2.2 = true) := by
  unfold add_documents
  split
  · left; rfl
  · split
    · left; rfl
    · split
      · left; rfl
      · split
        · left; rfl
        · right
          rename_i h1 hflag h3 h4
          refine ⟨rfl, ?_⟩
          revert hflag
          cases (addLoopOf st texts langs files cidxs fs).2.2.2 <;> simp

theorem reloadMgr_rows (st : MgrState) (ok : Bool) : (reloadMgr st ok).rows = st.rows := by
  unfold reloadMgr
  rcases hf : st.fileVec with _ | v <;> cases ok <;> rfl

/-- Committed rows always carry `doc_id = "doc_" + id` and pairwise distinct
ids, across every operation sequence including restarts and failures. -/
theorem stepOp_rows_wf (st : MgrState) (op : Op)
    (h : (∀ r ∈ st.rows, r.doc_id = docIdStr r.id) ∧
      (st.rows.map (fun r => r.id)).Nodup) :
    (∀ r ∈ (stepOp st op).rows, r.doc_id = docIdStr r.id) ∧
    ((stepOp st op).rows.map (fun r => r.id)).Nodup := by
  cases op with
  | add texts embs langs files cidxs fs =>
    rcases add_documents_rows_cases st texts embs langs files cidxs fs with hc | ⟨hc, hflag⟩
    · simp only [stepOp]
      rw [hc]
      exact h
    · have hs := addLoopOf_ok_spec st texts langs files cidxs fs hflag
      simp only [stepOp]
      rw [hc]
      constructor
      · intro r hr
        rcases List.mem_append.mp hr with hr | hr
        · exact h.1 r hr
        · exact hs.2.2.2.1 r hr
      · rw [List.map_append, hs.2.1, List.nodup_append]
        exact ⟨h.2, List.nodup_range' _ _, fun a ha hb => hs.2.2.2.2 a hb ha⟩
  | search q k => exact h
  | persist =>
    simp only [stepOp, persistMgr]
    split
    · exact h
    · exact h
  | stats => exact h
  | restart ok =>
    simp only [stepOp]
    rw [reloadMgr_rows]
    exact h

theorem run_rows_wf_aux :
    ∀ (ops : List Op) (st : MgrState),
      (∀ r ∈ st.rows, r.doc_id = docIdStr r.id) ∧
        (st.rows.map (fun r => r.id)).Nodup →
      (∀ r ∈ (ops.foldl stepOp st).rows, r.doc_id = docIdStr r.id) ∧
        ((ops.foldl stepOp st).rows.map (fun r => r.id)).Nodup
  | [], _, h => h
  | op :: ops, st, h => by
    rw [List.foldl_cons]
    exact run_rows_wf_aux ops (stepOp st op) (stepOp_rows_wf st op h)

/-- `IdAligned` is preserved by every no-failure, no-restart operation even
with mismatched input arities (the truncating zip still assigns contiguous
ids). -/
theorem stepOp_idaligned (st : MgrState) (op : Op) (hA : IdAligned st)
    (hop : happyOp op) : IdAligned (stepOp st op) := by
  obtain ⟨hid, hcnt⟩ := hA
  cases op with
  | add texts embs langs files cidxs fs =>
    have hfs : fs = noFail := hop
    subst hfs
    by_cases hlen : texts.length = embs.length
    · have hmax : ∀ k ∈ st.rows.map (fun r => r.id), k ≤ st.counter := by
        intro k hk
        rw [hid, List.mem_range'_1] at hk
        omega
      have hstep := add_documents_noFail_ok st texts embs langs files cidxs hmax hlen
      have hflag : (addLoopOf st texts langs files cidxs noFail).2.2.2 = true := by
        unfold addLoopOf
        exact addLoop_noFail_ok _ _ _ _ (by
          intro k hk
          exact hmax k (by simpa using hk))
      have hs := addLoopOf_ok_spec st texts langs files cidxs noFail hflag
      have hplen : (addLoopOf st texts langs files cidxs noFail).2.1.length =
          (zip4 texts langs files cidxs).length := by
        have := congrArg List.length hs.2.1
        simpa using this
      simp only [stepOp, hstep]
      constructor
      · simp only [List.map_append, hs.2.1, hid, hcnt, List.length_append, hplen]
        have h1 : st.rows.length + 1 = 1 + st.rows.length := by omega
        rw [h1, List.range'_append_1 1 st.rows.length (zip4 texts langs files cidxs).length,
          Nat.add_comm]
      · simp only [List.length_append, hs.1, hcnt, hplen]
    · have hstep : add_documents st texts embs langs files cidxs noFail =
          (st, .arityMismatch) := by
        unfold add_documents
        rw [if_pos hlen]
      simp only [stepOp, hstep]
      exact ⟨hid, hcnt⟩
  | search q k => exact ⟨hid, hcnt⟩
  | persist =>
    simp only [stepOp, persistMgr]
    split
    · exact ⟨hid, hcnt⟩
    · exact ⟨hid, hcnt⟩
  | stats => exact ⟨hid, hcnt⟩
  | restart ok => exact absurd hop (by simp [happyOp])

theorem run_idaligned_aux :
    ∀ (ops : List Op) (st : MgrState), IdAligned st → (∀ op ∈ ops, happyOp op) →
      IdAligned (ops.foldl stepOp st)
  | [], _, hA, _ => hA
  | op :: ops, st, hA, hops => by
    rw [List.foldl_cons]
    exact run_idaligned_aux ops (stepOp st op)
      (stepOp_idaligned st op hA (hops op (List.mem_cons_self op ops)))
      (fun o ho => hops o (List.mem_cons_of_mem op ho))

theorem foldr_max_range' :
    ∀ (n s : Nat), (List.range' s n).foldr max 0 = if n = 0 then 0 else s + n - 1
  | 0, _ => by simp
  | n + 1, s => by
    have hcons : List.range' s (n + 1) = s :: List.range' (s + 1) n := rfl
    rw [hcons, List.foldr_cons, foldr_max_range' n (s + 1)]
    split
    · rename_i hn
      subst hn
      simp
    · rename_i hn
      have : ¬ (n + 1 = 0) := by omega
      rw [if_neg this]
      omega

/-- `MAX(id)` of a contiguously-aligned table is the row count. -/
theorem maxIdOf_aligned (st : MgrState)
    (hid : st.rows.map (fun r => r.id) = List.range' 1 st.rows.length) :
    maxIdOf st.rows = st.rows.length := by
  unfold maxIdOf
  rw [hid, foldr_max_range']
  split
  · rename_i h
    omega
  · omega

/-- `_load_or_create_index` never consults the volatile counter. -/
theorem reloadMgr_ignores_counter (st : MgrState) (c : Nat) (ok : Bool) :
    reloadMgr { st with counter := c } ok = reloadMgr st ok := by
  unfold reloadMgr
  rcases hf : st.fileVec with _ | v <;> cases ok <;> simp [hf]

/-- With an index artifact present and loading successfully, the counter is
restored from the metadata store's `MAX(id)`. -/
theorem reloadMgr_counter_of_load (st : MgrState) (v : List Vec)
    (hf : st.fileVec = some v) : (reloadMgr st true).counter = maxIdOf st.rows := by
  unfold reloadMgr
  rw [hf]

/-- C6: (1) every committed row's `doc_id` is `"doc_" + decimal(id)`;
(2) committed ids are pairwise distinct over every operation sequence,
restarts and failures included (never reassigned); (3) over no-failure
runs ids are exactly `1..n` with the counter on top; (4) a successful add
from an aligned state assigns ids starting at `previous_max_id + 1` (so
the very first id is 1) and returns their `doc_<id>` strings in order;
(5) reload ignores the volatile counter entirely, and (6) recovers it
from the on-disk `MAX(id)` when the index artifact loads. -/
theorem c6_id_assignment :
    (∀ ops : List Op, ∀ r ∈ (run ops).rows, r.doc_id = docIdStr r.id) ∧
    (∀ ops : List Op, ((run ops).rows.map (fun r => r.id)).Nodup) ∧
    (∀ ops : List Op, (∀ op ∈ ops, happyOp op) → IdAligned (run ops)) ∧
    (∀ st : MgrState, IdAligned st →
      ∀ (texts : List String) (embs : List Vec) (langs files : List String)
        (cidxs : List Nat) (st' : MgrState) (ids : List String),
        add_documents st texts embs langs files cidxs noFail = (st', .ok ids) →
        ids = (List.range' (maxIdOf st.rows + 1)
          (zip4 texts langs files cidxs).length).map docIdStr) ∧
    (∀ (st : MgrState) (c : Nat) (ok : Bool),
      reloadMgr { st with counter := c } ok = reloadMgr st ok) ∧
    (∀ (st : MgrState) (v : List Vec), st.fileVec = some v →
      (reloadMgr st true).counter = maxIdOf st.rows) := by
  refine ⟨?_, ?_, ?_, ?_, reloadMgr_ignores_counter, reloadMgr_counter_of_load⟩
  · intro ops
    exact (run_rows_wf_aux ops st0 ⟨by intro r hr; simp [st0] at hr, by simp [st0]⟩).1
  · intro ops
    exact (run_rows_wf_aux ops st0 ⟨by intro r hr; simp [st0] at hr, by simp [st0]⟩).2
  · intro ops hops
    exact run_idaligned_aux ops st0 ⟨rfl, rfl⟩ hops
  · intro st hA texts embs langs files cidxs st' ids h
    have he := add_documents_ok_effect st texts embs langs files cidxs noFail st' ids h
    rw [he.2.2.2.2.2.1, maxIdOf_aligned st hA.1, ← hA.2]

theorem c6_witness :
    ((run [exGoodAdd]).rows.map (fun r => r.id)).Nodup ∧
    IdAligned (run [exGoodAdd]) ∧
    (⟨1, docIdStr 1, "a", "en", "f", 0⟩ : Row) ∈ (run [exGoodAdd]).rows ∧
    (⟨1, docIdStr 1, "a", "en", "f", 0⟩ : Row).doc_id = docIdStr 1 ∧
    (["doc_1", "doc_2"] : List String) =
      (List.range' (maxIdOf st0.rows + 1)
        (zip4 (["a", "b"]) (["en", "ja"]) (["f", "g"]) ([0, 1])).length).map docIdStr ∧
    reloadMgr { exStB with counter := 99 } true = reloadMgr exStB true ∧
    (reloadMgr { exStB with fileVec := some ([[5], [9]] : List Vec) } true).counter =
      maxIdOf ({ exStB with fileVec := some ([[5], [9]] : List Vec) } : MgrState).rows := by
  have h := c6_id_assignment
  refine ⟨h.2.1 [exGoodAdd], ?_, by decide, h.1 [exGoodAdd] _ (by decide), ?_, ?_, ?_⟩
  · exact h.2.2.1 [exGoodAdd] (by
      intro op hop
      rw [List.mem_singleton] at hop
      subst hop
      exact rfl)
  · exact h.2.2.2.1 st0 ⟨rfl, rfl⟩ (["a", "b"]) ([[5], [9]]) (["en", "ja"]) (["f", "g"])
      ([0, 1]) exStA (["doc_1", "doc_2"]) (by decide)
  · exact h.2.2.2.2.1 exStB 99 true
  · exact h.2.2.2.2.2 { exStB with fileVec := some ([[5], [9]] : List Vec) } ([[5], [9]]) rfl

/-! ## C5 / C9: search contract -/

theorem hitOf_score (rows : List Row) (p : Int × Nat) (h : Hit)
    (hh : hitOf rows p = some h) : h.score = p.1 := by
  unfold hitOf at hh
  cases hl : lookupRow rows (p.2 + 1) with
  | none => rw [hl] at hh; cases hh
  | some r =>
    rw [hl] at hh
    simp only [Option.map_some', Option.some.injEq] at hh
    rw [← hh]

theorem pairwise_filterMap_hitGe (rows : List Row) :
    ∀ l : List (Int × Nat), l.Pairwise scoreGe →
      (l.filterMap (hitOf rows)).Pairwise hitGe
  | [], _ => by simp
  | x :: xs, hp => by
    rw [List.filterMap_cons]
    rcases List.pairwise_cons.mp hp with ⟨hx, hxs⟩
    cases hx0 : hitOf rows x with
    | none => exact pairwise_filterMap_hitGe rows xs hxs
    | some b =>
      rw [List.pairwise_cons]
      refine ⟨?_, pairwise_filterMap_hitGe rows xs hxs⟩
      intro y hy
      obtain ⟨a, ha, hay⟩ := List.mem_filterMap.mp hy
      have h1 : y.score = a.1 := hitOf_score rows a y hay
      have h2 : b.score = x.1 := hitOf_score rows x b hx0
      have h3 : scoreGe x a := hx a ha
      unfold scoreGe at h3
      unfold hitGe
      omega

theorem length_filterMap_eq (f : (Int × Nat) → Option Hit) :
    ∀ l : List (Int × Nat),
      (l.filterMap f).length = (l.filter (fun a => (f a).isSome)).length
  | [] => rfl
  | x :: xs => by
    rw [List.filterMap_cons, List.filter_cons]
    cases hx : f x with
    | none =>
      simp only [hx, Option.isSome_none, Bool.false_eq_true, if_false]
      exact length_filterMap_eq f xs
    | some b =>
      simp only [hx, Option.isSome_some, if_true, List.length_cons]
      rw [length_filterMap_eq f xs]

theorem faissSearch_length (vectors : List Vec) (q : Vec) (k : Nat) :
    (faissSearch vectors q k).length = min k vectors.length := by
  unfold faissSearch
  rw [List.length_take, List.length_insertionSort, List.length_map, List.enum_length]

theorem faissSearch_sorted (vectors : List Vec) (q : Vec) (k : Nat) :
    (faissSearch vectors q k).Pairwise scoreGe :=
  (List.sorted_insertionSort scoreGe _).sublist (List.take_sublist k _)

/-- C5: search returns an empty sequence on an empty index; it returns at
most `min(top_k, total)` results ordered best-first by descending score;
and for `top_k ≥ 1` (the callers' schema enforces `ge=1`) on a non-empty
index the effective request `min(top_k, ntotal)` is clamped into
`[1, available_count]` and the raw search returns exactly that many
positions. -/
theorem c5_search_contract (st : MgrState) (q : Vec) (k : Nat) (hk : 1 ≤ k) :
    (st.vectors.length = 0 → searchMgr st q k = []) ∧
    (searchMgr st q k).length ≤ min k st.vectors.length ∧
    List.Sorted hitGe (searchMgr st q k) ∧
    (1 ≤ st.vectors.length →
      (faissSearch st.vectors q (min k st.vectors.length)).length =
        min k st.vectors.length ∧
      1 ≤ min k st.vectors.length ∧
      min k st.vectors.length ≤ st.vectors.length) := by
  refine ⟨?_, ?_, ?_, ?_⟩
  · intro h0
    unfold searchMgr
    rw [if_pos h0]
  · unfold searchMgr
    split
    · simp
    · refine le_trans (List.length_filterMap_le _ _) ?_
      rw [faissSearch_length]
      omega
  · unfold searchMgr
    split
    · simp
    · exact pairwise_filterMap_hitGe st.rows _ (faissSearch_sorted st.vectors q _)
  · intro h1
    refine ⟨?_, by omega, by omega⟩
    rw [faissSearch_length]
    omega

theorem c5_witness :
    (1 : Nat) ≤ 1 ∧
    searchMgr st0 ([1]) 1 = [] ∧
    ((exStA.vectors.length = 0 → searchMgr exStA ([1]) 1 = []) ∧
      (searchMgr exStA ([1]) 1).length ≤ min 1 exStA.vectors.length ∧
      List.Sorted hitGe (searchMgr exStA ([1]) 1) ∧
      (1 ≤ exStA.vectors.length →
        (faissSearch exStA.vectors ([1]) (min 1 exStA.vectors.length)).length =
          min 1 exStA.vectors.length ∧
        1 ≤ min 1 exStA.vectors.length ∧
        min 1 exStA.vectors.length ≤ exStA.vectors.length)) :=
  ⟨le_refl 1, (c5_search_contract st0 ([1]) 1 (le_refl 1)).1 rfl,
    c5_search_contract exStA ([1]) 1 (le_refl 1)⟩

/-- C9: a raw search position whose metadata row is missing is skipped —
the result length equals the number of raw top-k positions whose row
exists — and every returned hit is built from the row with id
`position + 1`; the call never fails, it just returns fewer results. -/
theorem c9_skip_missing_rows (st : MgrState) (q : Vec) (k : Nat) :
    (searchMgr st q k).length =
      ((faissSearch st.vectors q (min k st.vectors.length)).filter
        (fun p => (hitOf st.rows p).isSome)).length ∧
    ∀ h ∈ searchMgr st q k,
      ∃ p ∈ faissSearch st.vectors q (min k st.vectors.length),
        ∃ r ∈ st.rows, r.id = p.2 + 1 ∧
          h = ⟨r.doc_id, r.text, r.language, r.filename, p.1⟩ := by
  constructor
  · unfold searchMgr
    split
    · rename_i h0
      have hv : st.vectors = [] := List.length_eq_zero.mp h0
      rw [hv]
      simp [faissSearch]
    · exact length_filterMap_eq (hitOf st.rows) _
  · intro h hh
    unfold searchMgr at hh
    split at hh
    · simp at hh
    · obtain ⟨p, hp, hhit⟩ := List.mem_filterMap.mp hh
      unfold hitOf at hhit
      cases hl : lookupRow st.rows (p.2 + 1) with
      | none => rw [hl] at hhit; cases hhit
      | some r =>
        rw [hl] at hhit
        simp only [Option.map_some', Option.some.injEq] at hhit
        have hl2 : st.rows.find? (fun row => decide (row.id = p.2 + 1)) = some r := hl
        refine ⟨p, hp, r, ?_, ?_, hhit.symm⟩
        · exact List.mem_of_find?_eq_some hl2
        · have hpr := List.find?_some hl2
          simpa using hpr

theorem c9_witness :
    (searchMgr exStB ([1]) 5).length =
      ((faissSearch exStB.vectors ([1]) (min 5 exStB.vectors.length)).filter
        (fun p => (hitOf exStB.rows p).isSome)).length ∧
    (searchMgr exStB ([1]) 5).length = 1 ∧
    exStB.vectors.length = 2 ∧
    (∃ p ∈ faissSearch exStB.vectors ([1]) (min 5 exStB.vectors.length),
      ∃ r ∈ exStB.rows, r.id = p.2 + 1 ∧
        (⟨docIdStr 1, "a", "en", "f", 5⟩ : Hit) =
          ⟨r.doc_id, r.text, r.language, r.filename, p.1⟩) :=
  ⟨(c9_skip_missing_rows exStB ([1]) 5).1, by decide, by decide,
    (c9_skip_missing_rows exStB ([1]) 5).2 (⟨docIdStr 1, "a", "en", "f", 5⟩ : Hit)
      (by decide)⟩
